import Mathlib

/-!
Verification of the stream-URL resolution core of the Gaana-API repository
(`src/utils/crypto.ts`).  Strings are embedded as `List Char`; JavaScript
string primitives (`indexOf`, `substring`, `split`, `trim`, ...) are given
explicit executable models.  Network fetches are modelled as an oracle
`List Char → Option (List Char)` (`none` = fetch failure / non-2xx), and the
AES-128 block decryption provided by Node's `createDecipheriv` is abstracted
as a parameter `List Nat → List Nat` (one 16-byte block in, one block out);
the CBC chaining, the block-alignment failure, and everything else in
`decryptStreamPath` are modelled concretely.
-/

namespace Gaana

/-- Model of JavaScript `String.prototype.startsWith`: the pattern is a
list-prefix of the string. -/
def startsWithL (l pat : List Char) : Bool :=
  pat.isPrefixOf l

/-- Model of JavaScript `String.prototype.indexOf(pat)` restricted to the
found/not-found information: index of the first occurrence of `pat`. -/
def idxOfSub (pat : List Char) : List Char → Option Nat
  | [] => if pat.isEmpty then some 0 else none
  | c :: r => if startsWithL (c :: r) pat then some 0 else (idxOfSub pat r).map (· + 1)

/-- Model of JavaScript `String.prototype.includes` (`indexOf(...) !== -1`). -/
def hasSub (l pat : List Char) : Bool :=
  (idxOfSub pat l).isSome

/-- Model of `indexOf(pat)` returning `-1` when absent, as the TS code uses it. -/
def jsIndexOfSub (l pat : List Char) : Int :=
  match idxOfSub pat l with
  | some k => (k : Int)
  | none => -1

/-- Model of JavaScript `substring(i)`: negative start indices clamp to 0. -/
def jsSubstringFrom (l : List Char) (i : Int) : List Char :=
  l.drop i.toNat

/-- Model of `indexOf(c, start)` for a single character, as an option. -/
def idxOfCharFrom (l : List Char) (c : Char) (start : Nat) : Option Nat :=
  (idxOfSub [c] (l.drop start)).map (· + start)

/-- Index of the last occurrence of a character (JS `lastIndexOf`). -/
def lastIdxOf (c : Char) : List Char → Option Nat
  | [] => none
  | a :: r =>
    match lastIdxOf c r with
    | some k => some (k + 1)
    | none => if a = c then some 0 else none

/-- Embeds `getBaseUrl` (crypto.ts lines 42-46): strip the query string
(`split('?')[0]`), then keep everything up to and including the last slash;
if there is no slash the query-stripped URL is returned whole. -/
def getBaseUrl (url : List Char) : List Char :=
  let pre := url.takeWhile (· ≠ '?')
  match lastIdxOf '/' pre with
  | some k => pre.take (k + 1)
  | none => pre

/-- Embeds `resolveUrl` (crypto.ts lines 51-61): absolute http(s) references
pass through; root-relative references are attached to the base cut at the
first slash after `://` when both are found; everything else (including the
fallback cases) is plain concatenation. -/
def resolveUrl (baseUrl path : List Char) : List Char :=
  if startsWithL path ("http://".data) || startsWithL path ("https://".data) then path
  else if startsWithL path ("/".data) then
    match idxOfSub ("://".data) baseUrl with
    | some se =>
      match idxOfCharFrom baseUrl '/' (se + 3) with
      | some ps => baseUrl.take ps ++ path
      | none => baseUrl ++ path
    | none => baseUrl ++ path
  else baseUrl ++ path

/-- Character class removed by JavaScript `String.prototype.trim` (ASCII
whitespace plus the Unicode space separators recognised by JS). -/
def isJsWs (c : Char) : Bool :=
  let n := c.toNat
  n = 32 || n = 9 || n = 10 || n = 11 || n = 12 || n = 13 ||
  n = 160 || n = 5760 || (8192 ≤ n && n ≤ 8202) || n = 8232 ||
  n = 8233 || n = 8239 || n = 8287 || n = 12288 || n = 65279

/-- Model of JavaScript `String.prototype.trim`. -/
def trimL (l : List Char) : List Char :=
  ((l.dropWhile isJsWs).reverse.dropWhile isJsWs).reverse

/-- Model of JavaScript `split('\n')`: always returns at least one piece
(the empty string splits to `[""]`). -/
def splitNl : List Char → List (List Char)
  | [] => [[]]
  | c :: r =>
    if c = '\n' then [] :: splitNl r
    else
      match splitNl r with
      | h :: t => (c :: h) :: t
      | [] => [[c]]

/-- Embeds the line production of `fetchPlaylist` (crypto.ts lines 71-72):
`text.split('\n').map(line => line.trim())`. -/
def toLines (text : List Char) : List (List Char) :=
  (splitNl text).map trimL

/-- Numeric value of a run of decimal digit characters. -/
def digitsVal (ds : List Char) : Nat :=
  ds.foldl (fun a c => a * 10 + (c.toNat - 48)) 0

/-- Model of JavaScript `parseFloat` as an exact prefix parse: optional
whitespace, optional sign, decimal digits with an optional fractional part,
and an optional `e`/`E` exponent; parsing stops at the first character that
cannot extend the number, and returns `none` for `NaN`.  The result is the
pair `(m, ex)` denoting the exact value `m * 10 ^ ex`.  The `Infinity`
literal and IEEE-754 double rounding are not modelled; every finite
decimal/scientific literal is parsed to its exact value. -/
def parsePrefixFloat (l : List Char) : Option (Int × Int) :=
  let l1 := l.dropWhile isJsWs
  let sgn : Int × List Char :=
    match l1 with
    | '-' :: r => (-1, r)
    | '+' :: r => (1, r)
    | _ => (1, l1)
  let l2 := sgn.2
  let ip := l2.takeWhile Char.isDigit
  let l3 := l2.drop ip.length
  let fpp : List Char × List Char :=
    match l3 with
    | '.' :: r => (r.takeWhile Char.isDigit, r.drop (r.takeWhile Char.isDigit).length)
    | _ => ([], l3)
  let fp := fpp.1
  let l4 := fpp.2
  if ip.isEmpty && fp.isEmpty then none
  else
    let e : Int :=
      match l4 with
      | c :: r =>
        if c = 'e' || c = 'E' then
          let esr : Int × List Char :=
            match r with
            | '-' :: rr => (-1, rr)
            | '+' :: rr => (1, rr)
            | _ => (1, r)
          let eds := esr.2.takeWhile Char.isDigit
          if eds.isEmpty then 0 else esr.1 * (digitsVal eds : Int)
        else 0
      | [] => 0
    some (sgn.1 * (digitsVal (ip ++ fp) : Int), e - (fp.length : Int))

/-- JavaScript `Math.round` (round half toward positive infinity) of the
exact value `m * 10 ^ ex`, computed with integer arithmetic:
`⌊m * 10 ^ ex + 1 / 2⌋`. -/
def jsRoundScaled (m ex : Int) : Int :=
  if 0 ≤ ex then m * ((10 : Int) ^ ex.toNat)
  else
    let d : Int := (10 : Int) ^ (-ex).toNat
    Int.fdiv (2 * m + d) (2 * d)

/-- Embeds the `#EXTINF:` handling of `parseStreamPlaylist` (crypto.ts
lines 96-99): `Math.round(parseFloat(line.substring(8).split(',')[0]) * 1000)
|| 6000`.  A JS `NaN` (unparsable) or `0`/`-0` result is falsy and therefore
replaced by the 6000 default; any other value — including negative ones —
is kept. -/
def extinfDuration (line : List Char) : Int :=
  let durStr := (line.drop 8).takeWhile (· ≠ ',')
  match parsePrefixFloat durStr with
  | none => 6000
  | some me =>
    let z := jsRoundScaled me.1 (me.2 + 3)
    if z = 0 then 6000 else z

/-- The media-segment extensions of the regex
`/\.(ts|m4s|mp4|m4a|aac)(\?|$)/i`. -/
def segExts : List (List Char) :=
  ["ts".data, "m4s".data, "mp4".data, "m4a".data, "aac".data]

/-- Whether the text right after a literal dot matches one of the segment
extensions (case-insensitively) followed by `?` or the end of the line. -/
def isSegExtAt (l : List Char) : Bool :=
  segExts.any fun e =>
    (l.take e.length).map Char.toLower = e &&
      ((l.drop e.length).isEmpty || (l.drop e.length).head? = some '?')

/-- Embeds the test of `/\.(ts|m4s|mp4|m4a|aac)(\?|$)/i` on a line
(crypto.ts line 103): some dot in the line is followed by a recognised
extension and then `?` or end of string. -/
def isSegmentLine : List Char → Bool
  | [] => false
  | c :: r => (c = '.' && isSegExtAt r) || isSegmentLine r

/-- Whether the text right after a dot is `m3u8` followed by `?` or the end
of the line (case-sensitively). -/
def isM3u8At (l : List Char) : Bool :=
  startsWithL l ("m3u8".data) &&
    ((l.drop 4).isEmpty || (l.drop 4).head? = some '?')

/-- Embeds the test of `/\.m3u8(\?|$)/` on a line (crypto.ts line 130). -/
def hasM3u8Ref : List Char → Bool
  | [] => false
  | c :: r => (c = '.' && isM3u8At r) || hasM3u8Ref r

/-- Embeds `line.match(/URI="([^"]+)"/)` followed by taking capture group 1
(crypto.ts lines 89-92): scan for the earliest position where `URI="` is
followed by at least one non-quote character and a closing quote; positions
where the capture would be empty or unterminated are skipped, exactly as the
regex engine advances its start position. -/
def uriAttr : List Char → Option (List Char)
  | [] => none
  | c :: rest =>
    if startsWithL (c :: rest) ("URI=\"".data) then
      let after := (c :: rest).drop 5
      let cap := after.takeWhile (· ≠ '"')
      if !cap.isEmpty && (after.drop cap.length).head? = some '"' then some cap
      else uriAttr rest
    else uriAttr rest

/-- Segment info from the HLS manifest (crypto.ts lines 25-28). -/
structure SegmentInfo where
  url : List Char
  durationMs : Int
deriving DecidableEq

/-- Parsed HLS manifest result (crypto.ts lines 33-37). -/
structure HlsManifest where
  initSegmentUrl : Option (List Char)
  segments : List SegmentInfo
  totalDurationMs : Int
deriving DecidableEq

/-- Embeds the loop body of `parseStreamPlaylist` (crypto.ts lines 84-112):
empty lines are skipped; an `#EXT-X-MAP:` line with a quoted URI replaces the
init-segment URL; an `#EXTINF:` line replaces the pending duration; a
non-comment line matching a segment extension is appended with the pending
duration, which then resets to 6000; every other line leaves the state
unchanged. -/
def scanLines (baseUrl : List Char) (init : Option (List Char)) (cur : Int) :
    List (List Char) → Option (List Char) × List SegmentInfo
  | [] => (init, [])
  | line :: rest =>
    if line.isEmpty then scanLines baseUrl init cur rest
    else
      let init2 :=
        if startsWithL line ("#EXT-X-MAP:".data) then
          match uriAttr line with
          | some u => some (resolveUrl baseUrl u)
          | none => init
        else init
      let cur2 := if startsWithL line ("#EXTINF:".data) then extinfDuration line else cur
      if !startsWithL line ("#".data) && isSegmentLine line then
        let tail := scanLines baseUrl init2 6000 rest
        (tail.1, ⟨resolveUrl baseUrl line, cur2⟩ :: tail.2)
      else scanLines baseUrl init2 cur2 rest

/-- Embeds `parseStreamPlaylist` (crypto.ts lines 78-116). -/
def parseStreamPlaylist (playlistUrl : List Char) (lines : List (List Char)) : HlsManifest :=
  let baseUrl := getBaseUrl playlistUrl
  let scanned := scanLines baseUrl none 6000 lines
  ⟨scanned.1, scanned.2, (scanned.2.map SegmentInfo.durationMs).sum⟩

/-- Failure cases of the manifest resolver: a failed/non-2xx fetch
(crypto.ts line 70) and the empty-line-list check (crypto.ts line 123). -/
inductive ResolveErr where
  | fetchFail
  | emptyManifest
deriving DecidableEq

/-- Embeds the nested-playlist search of `parseHlsManifest` (crypto.ts
lines 128-134): the first non-empty, non-comment line matching
`/\.m3u8(\?|$)/`, resolved against the master base URL. -/
def findNested (baseUrl : List Char) : List (List Char) → Option (List Char)
  | [] => none
  | l :: rest =>
    if !l.isEmpty && !startsWithL l ("#".data) && hasM3u8Ref l then
      some (resolveUrl baseUrl l)
    else findNested baseUrl rest

/-- Embeds `parseHlsManifest` (crypto.ts lines 121-144) together with the
`fetchPlaylist` helper, over a fetch oracle (`none` models a thrown fetch
error).  The second component records the URLs fetched, in order. -/
def parseHlsManifest (orc : List Char → Option (List Char)) (masterUrl : List Char) :
    Except ResolveErr HlsManifest × List (List Char) :=
  match orc masterUrl with
  | none => (Except.error ResolveErr.fetchFail, [masterUrl])
  | some text =>
    let masterLines := toLines text
    if masterLines.isEmpty then (Except.error ResolveErr.emptyManifest, [masterUrl])
    else
      match findNested (getBaseUrl masterUrl) masterLines with
      | none => (Except.ok (parseStreamPlaylist masterUrl masterLines), [masterUrl])
      | some su =>
        match orc su with
        | none => (Except.error ResolveErr.fetchFail, [masterUrl, su])
        | some t2 => (Except.ok (parseStreamPlaylist su (toLines t2)), [masterUrl, su])

/-- AES key constant (crypto.ts line 12), as bytes. -/
def KEY : List Nat :=
  ("gy1t#b@jl(b$wtme".data).map Char.toNat

/-- AES IV constant (crypto.ts line 13), as bytes. -/
def IV : List Nat :=
  ("xC4dmVJAq14BfntX".data).map Char.toNat

/-- Base URL for the HLS streams (crypto.ts line 18). -/
def HLS_BASE_URL : List Char :=
  "https://vodhlsgaana-ebw.akamaized.net/".data

/-- Value of a base64 alphabet character; Node also accepts the url-safe
alphabet (`-`, `_`). -/
def b64Val (c : Char) : Option Nat :=
  let n := c.toNat
  if 65 ≤ n && n ≤ 90 then some (n - 65)
  else if 97 ≤ n && n ≤ 122 then some (n - 71)
  else if 48 ≤ n && n ≤ 57 then some (n + 4)
  else if c = '+' || c = '-' then some 62
  else if c = '/' || c = '_' then some 63
  else none

/-- Regroup 6-bit values into bytes; a lone trailing sextet is dropped and
leftover low bits are discarded, as in standard lenient base64 decoding. -/
def sextetsToBytes : List Nat → List Nat
  | a :: b :: c :: d :: rest =>
    (a * 4 + b / 16) :: ((b % 16) * 16 + c / 4) :: ((c % 4) * 64 + d) :: sextetsToBytes rest
  | [a, b, c] => [a * 4 + b / 16, (b % 16) * 16 + c / 4]
  | [a, b] => [a * 4 + b / 16]
  | _ => []

/-- Model of Node's lenient `Buffer.from(s, 'base64')`: decoding stops at the
first `=`, every character outside the (url-safe-extended) alphabet is
ignored, and the surviving sextets are regrouped into bytes.  It never
throws. -/
def nodeB64Decode (l : List Char) : List Nat :=
  sextetsToBytes ((l.takeWhile (· ≠ '=')).filterMap b64Val)

/-- Bytewise xor of two equal-length byte lists. -/
def xorBytes (a b : List Nat) : List Nat :=
  List.zipWith (fun x y => x ^^^ y) a b

/-- CBC-mode chaining for decryption: each plaintext block is the block
decryption of the ciphertext block xored with the previous ciphertext block
(the IV for the first).  `bd` is the raw AES-128 block decryption under
`KEY`, abstracted since it lives in Node's crypto library, not in this
repository.  Fuel-driven so that the definition evaluates by `decide`. -/
def cbcBlocks (bd : List Nat → List Nat) : Nat → List Nat → List Nat → List Nat
  | 0, _, _ => []
  | _, _, [] => []
  | fuel + 1, prev, ct =>
    xorBytes (bd (ct.take 16)) prev ++ cbcBlocks bd fuel (ct.take 16) (ct.drop 16)

/-- CBC decryption of a whole (block-aligned) ciphertext. -/
def cbcDecrypt (bd : List Nat → List Nat) (iv ct : List Nat) : List Nat :=
  cbcBlocks bd ct.length iv ct

/-- The replacement character a lossy UTF-8 decoder emits for invalid input. -/
def replChar : Char :=
  Char.ofNat 0xFFFD

/-- Fuel-driven WHATWG-style lossy UTF-8 decoding (Node
`buffer.toString('utf8')`): ASCII bytes decode to themselves, well-formed
multi-byte sequences to their (non-ASCII) code point, and invalid bytes to
U+FFFD.  Only the properties that ASCII bytes survive unchanged and that
nothing non-ASCII ever becomes an ASCII character are relied on later. -/
def utf8Go : Nat → List Nat → List Char
  | 0, _ => []
  | _, [] => []
  | fuel + 1, b :: rest =>
    if b < 0x80 then Char.ofNat b :: utf8Go fuel rest
    else if b < 0xC2 then replChar :: utf8Go fuel rest
    else if b < 0xE0 then
      match rest with
      | b2 :: r2 =>
        if 0x80 ≤ b2 && b2 < 0xC0 then
          Char.ofNat ((b - 0xC0) * 64 + (b2 - 0x80)) :: utf8Go fuel r2
        else replChar :: utf8Go fuel rest
      | [] => [replChar]
    else if b < 0xF0 then
      match rest with
      | b2 :: b3 :: r3 =>
        if (0x80 ≤ b2 && b2 < 0xC0) && (0x80 ≤ b3 && b3 < 0xC0) &&
            !(b = 0xE0 && b2 < 0xA0) && !(b = 0xED && 0xA0 ≤ b2) then
          Char.ofNat ((b - 0xE0) * 4096 + (b2 - 0x80) * 64 + (b3 - 0x80)) :: utf8Go fuel r3
        else replChar :: utf8Go fuel rest
      | _ => [replChar]
    else if b < 0xF5 then
      match rest with
      | b2 :: b3 :: b4 :: r4 =>
        if (0x80 ≤ b2 && b2 < 0xC0) && (0x80 ≤ b3 && b3 < 0xC0) &&
            (0x80 ≤ b4 && b4 < 0xC0) && !(b = 0xF0 && b2 < 0x90) &&
            !(b = 0xF4 && 0x90 ≤ b2) then
          Char.ofNat ((b - 0xF0) * 262144 + (b2 - 0x80) * 4096 + (b3 - 0x80) * 64 + (b4 - 0x80))
            :: utf8Go fuel r4
        else replChar :: utf8Go fuel rest
      | _ => [replChar]
    else replChar :: utf8Go fuel rest

/-- Lossy UTF-8 decoding of a byte list. -/
def utf8DecodeLossy (bs : List Nat) : List Char :=
  utf8Go bs.length bs

/-- Printable-ASCII filter used on the decrypted text (crypto.ts
lines 176-181). -/
def printableAscii (c : Char) : Bool :=
  32 ≤ c.toNat && c.toNat ≤ 126

/-- Embeds the path-marker extraction of `decryptStreamPath` (crypto.ts
lines 183-191): the guard tests `includes('/hls/')` (five characters), but
the cut position is `indexOf('hls/')` (four characters); on a missing guard
the function warns and yields the empty string. -/
def extractHlsPath (rawText : List Char) : List Char :=
  if hasSub rawText ("/hls/".data) then
    HLS_BASE_URL ++ jsSubstringFrom rawText (jsIndexOfSub rawText ("hls/".data))
  else []

/-- Value of `parseInt(c, 10)` on a single character, as an option
(`none` = `NaN`). -/
def digitVal (c : Char) : Option Nat :=
  if c.isDigit then some (c.toNat - 48) else none

/-- Embeds `decryptStreamPath` (crypto.ts lines 151-196) over an abstract
AES block decryption `bd`.  The whole body sits in a `try`/`catch` returning
`''`; the only throwing step is the cipher, which with auto-padding disabled
fails exactly when the decoded ciphertext is not 16-byte aligned, so the
model returns `[]` there.  An out-of-range `encryptedData[0]` yields
`undefined`, hence `parseInt` gives `NaN` and the function returns `''`. -/
def decryptStreamPath (bd : List Nat → List Nat) (encryptedData : List Char) : List Char :=
  match encryptedData.head? with
  | none => []
  | some c =>
    match digitVal c with
    | none => []
    | some off =>
      let ctB64 := encryptedData.drop (off + 16)
      let ct := nodeB64Decode (ctB64 ++ ("==".data))
      if ct.length % 16 = 0 then
        let plain := cbcDecrypt bd IV ct
        let raw0 := utf8DecodeLossy plain
        let raw1 := trimL (raw0.filter (fun ch => ch ≠ Char.ofNat 0))
        let rawText := raw1.filter printableAscii
        extractHlsPath rawText
      else []

/-- Shape of the parsed upstream JSON that `fetchStreamUrl` consumes
(crypto.ts lines 256-263); absent fields are `none` (and an absent `data`
object collapses to absent inner fields, as with `data.data?.stream_path`). -/
structure UpstreamResponse where
  api_status : Option (List Char)
  stream_path : Option (List Char)
  bit_rate : Option (List Char)
deriving DecidableEq

/-- Observable effects of one `fetchStreamUrl` run: the decryption of a token
and each manifest fetch (the upstream lookup POST itself is the model's
input, not an event). -/
inductive PipeEvent where
  | decryptCall (tok : List Char)
  | fetchCall (url : List Char)
deriving DecidableEq

/-- Media URL object (crypto.ts lines 209-224). -/
structure MediaUrl where
  quality : List Char
  bitRate : List Char
  hlsUrl : List Char
  url : List Char
  initUrl : Option (List Char)
  segments : List SegmentInfo
  durationMs : Int
  format : List Char
deriving DecidableEq

/-- Embeds the container-format detection of `fetchStreamUrl` (crypto.ts
lines 277-283): an `includes` chain over `.m4s`, `.mp4`, `.ts`, `.aac` in
that order, defaulting to `m4a`. -/
def detectFormat (u : List Char) : List Char :=
  if hasSub u (".m4s".data) then (("m4s").data)
  else if hasSub u (".mp4".data) then (("mp4").data)
  else if hasSub u (".ts".data) then (("ts").data)
  else if hasSub u (".aac".data) then (("aac").data)
  else (("m4a").data)

/-- Embeds `fetchStreamUrl` (crypto.ts lines 232-303) over the abstract AES
block decryption `bd`, the fetch oracle `orc`, the parsed upstream response
and the requested quality.  The `try`/`catch` that converts any thrown
manifest error into `null` is modelled by mapping the `Except.error` result
to `none`.  The second component lists the effects performed. -/
def fetchStreamUrl (bd : List Nat → List Nat) (orc : List Char → Option (List Char))
    (resp : UpstreamResponse) (quality : List Char) : Option MediaUrl × List PipeEvent :=
  if resp.api_status = some ("success".data) then
    match resp.stream_path with
    | none => (none, [])
    | some sp =>
      if sp.isEmpty then (none, [])
      else
        let hlsUrl := decryptStreamPath bd sp
        if hlsUrl.isEmpty then (none, [PipeEvent.decryptCall sp])
        else
          let parsed := parseHlsManifest orc hlsUrl
          let evs := PipeEvent.decryptCall sp :: parsed.2.map PipeEvent.fetchCall
          match parsed.1 with
          | Except.error _ => (none, evs)
          | Except.ok manifest =>
            match manifest.segments with
            | [] => (none, evs)
            | s0 :: _ =>
              (some ⟨quality, resp.bit_rate.getD [], hlsUrl, s0.url,
                manifest.initSegmentUrl, manifest.segments, manifest.totalDurationMs,
                detectFormat s0.url⟩, evs)
  else (none, [])

/-! Spec-side definitions, written to follow the wording of the
specification (deliberately via different traversals than the code-side
definitions, so agreement theorems have content). -/

/-- Spec wording for the path-marker extraction: the suffix of the text
starting at the first occurrence of the four-character marker. -/
def specMarkerSuffix : List Char → Option (List Char)
  | [] => none
  | c :: r => if startsWithL (c :: r) ("hls/".data) then some (c :: r) else specMarkerSuffix r

/-- Spec wording for the directory prefix of a URL: strip the query string,
then keep everything up to and including the last slash (computed here by
reversing and dropping up to the last slash). -/
def specDirOf (u : List Char) : List Char :=
  ((u.takeWhile (· ≠ '?')).reverse.dropWhile (· ≠ '/')).reverse

/-- Suffix test used to state the spec-side container-format claim. -/
def endsWithL (l pat : List Char) : Bool :=
  pat.isSuffixOf l

/-! Helper lemmas about the string primitives. -/

/-- A successful prefix test yields an append decomposition. -/
theorem startsWithL_ex {pat l : List Char} (h : startsWithL l pat = true) :
    ∃ t, l = pat ++ t := by
  induction pat generalizing l with
  | nil => exact ⟨l, rfl⟩
  | cons p ps ih =>
    cases l with
    | nil => exact absurd h (by simp [startsWithL, List.isPrefixOf])
    | cons a as =>
      have h2 : ((p == a) && List.isPrefixOf ps as) = true := h
      rw [Bool.and_eq_true, beq_iff_eq] at h2
      obtain ⟨t, ht⟩ := ih h2.2
      exact ⟨t, by rw [h2.1, List.cons_append, ← ht]⟩

/-- A pattern is a prefix of itself followed by anything. -/
theorem startsWithL_append (pat t : List Char) : startsWithL (pat ++ t) pat = true := by
  induction pat with
  | nil => simp [startsWithL, List.isPrefixOf]
  | cons p ps ih => simp [startsWithL, List.isPrefixOf, ih]

/-- Prefix tests are monotone in the pattern. -/
theorem startsWithL_mono {l p q : List Char} (h : startsWithL l (p ++ q) = true) :
    startsWithL l p = true := by
  obtain ⟨t, rfl⟩ := startsWithL_ex h
  rw [List.append_assoc]
  exact startsWithL_append p (q ++ t)

/-- A string starting with a nonempty pattern is nonempty. -/
theorem isEmpty_false_of_startsWith {l : List Char} {c : Char} {p : List Char}
    (h : startsWithL l (c :: p) = true) : l.isEmpty = false := by
  obtain ⟨t, rfl⟩ := startsWithL_ex h
  rfl

/-- An `#EXTINF:` line does not match the `#EXT-X-MAP:` directive. -/
theorem extinf_not_map {l : List Char} (h : startsWithL l ("#EXTINF:".data) = true) :
    startsWithL l ("#EXT-X-MAP:".data) = false := by
  obtain ⟨t, rfl⟩ := startsWithL_ex h
  rfl

/-- An `#EXTINF:` line is a comment line. -/
theorem extinf_starts_hash {l : List Char} (h : startsWithL l ("#EXTINF:".data) = true) :
    startsWithL l ("#".data) = true :=
  startsWithL_mono (p := "#".data) (q := "EXTINF:".data) h

/-- An `#EXT-X-MAP:` line is a comment line. -/
theorem map_starts_hash {l : List Char} (h : startsWithL l ("#EXT-X-MAP:".data) = true) :
    startsWithL l ("#".data) = true :=
  startsWithL_mono (p := "#".data) (q := "EXT-X-MAP:".data) h

/-- A line that starts with the pattern has a `some` substring index. -/
theorem idxOfSub_isSome_of_startsWith {pat l : List Char} (h : startsWithL l pat = true) :
    (idxOfSub pat l).isSome = true := by
  cases l with
  | nil =>
    obtain ⟨t, ht⟩ := startsWithL_ex h
    cases pat with
    | nil => rfl
    | cons p ps => exact absurd ht.symm (by simp)
  | cons c r => simp [idxOfSub, h]

/-- Occurrence as a decomposition implies a positive `hasSub` test. -/
theorem hasSub_of_parts (A pat B : List Char) : hasSub (A ++ (pat ++ B)) pat = true := by
  induction A with
  | nil =>
    exact idxOfSub_isSome_of_startsWith (startsWithL_append pat B)
  | cons a A' ih =>
    rw [hasSub] at ih ⊢
    rw [List.cons_append, idxOfSub]
    by_cases hst : startsWithL (a :: (A' ++ (pat ++ B))) pat = true
    · rw [if_pos hst]
      rfl
    · rw [if_neg hst]
      simpa using ih

/-- Mapping over an option preserves the `isSome` test. -/
theorem isSome_map' {α β : Type} (f : α → β) (o : Option α) :
    (o.map f).isSome = o.isSome := by
  cases o <;> rfl

/-- A positive `hasSub` test yields an occurrence decomposition. -/
theorem hasSub_ex {l pat : List Char} (h : hasSub l pat = true) :
    ∃ A B, l = A ++ (pat ++ B) := by
  induction l with
  | nil =>
    rw [hasSub, idxOfSub] at h
    cases pat with
    | nil => exact ⟨[], [], rfl⟩
    | cons p ps => simp at h
  | cons c r ih =>
    rw [hasSub, idxOfSub] at h
    by_cases hst : startsWithL (c :: r) pat = true
    · obtain ⟨t, ht⟩ := startsWithL_ex hst
      exact ⟨[], t, ht⟩
    · simp only [Bool.not_eq_true] at hst
      rw [if_neg (by simp [hst])] at h
      rw [isSome_map'] at h
      obtain ⟨A, B, hab⟩ := ih h
      exact ⟨c :: A, B, by rw [hab, List.cons_append]⟩

/-! Claim C10. -/

/-- Every result of the marker extraction is empty or an extension of the
base URL. -/
theorem extractHlsPath_shape (t : List Char) :
    extractHlsPath t = [] ∨ ∃ r, extractHlsPath t = HLS_BASE_URL ++ r := by
  rw [extractHlsPath]
  split
  · exact Or.inr ⟨_, rfl⟩
  · exact Or.inl rfl

/-- Claim C10: `decryptStreamPath` is total over all inputs (the model is a
total function mirroring the `try`/`catch` body); every failure path yields
the empty string and every non-empty result begins with the fixed HLS base
URL constant. -/
theorem C10_decrypt_total_shape (bd : List Nat → List Nat) (s : List Char) :
    decryptStreamPath bd s = [] ∨
      ∃ r, decryptStreamPath bd s = HLS_BASE_URL ++ r := by
  cases s with
  | nil => exact Or.inl rfl
  | cons c r =>
    rw [decryptStreamPath]
    dsimp only [List.head?]
    cases hd : digitVal c with
    | none => exact Or.inl rfl
    | some off =>
      dsimp only
      split
      · exact extractHlsPath_shape _
      · exact Or.inl rfl

/-! Claim C4. -/

/-- Claim C4: when the Base64-decoded remainder (with the two unconditionally
appended padding characters) is not a multiple of the 16-byte block size, the
cipher step throws, the `catch` turns this into the empty-string failure, and
no text is ever returned: `decryptStreamPath` yields `''`. -/
theorem C4_cipher_misaligned (bd : List Nat → List Nat) (data : List Char) (c : Char) (off : Nat)
    (h1 : data.head? = some c) (h2 : digitVal c = some off)
    (h3 : (nodeB64Decode (data.drop (off + 16) ++ ("==".data))).length % 16 ≠ 0) :
    decryptStreamPath bd data = [] := by
  rw [decryptStreamPath, h1]
  dsimp only
  rw [h2]
  dsimp only
  rw [if_neg h3]

/-- Witness for C4: a concrete token whose remainder decodes to 6 bytes. -/
theorem C4_cipher_misaligned_witness :
    decryptStreamPath (fun l => l) ("0123456789012345AAAAAAAA".data) = [] :=
  C4_cipher_misaligned (fun l => l) ("0123456789012345AAAAAAAA".data) '0' 0
    (by decide) (by decide) (by decide)

/-! Claim C8. -/

/-- Claim C8: a non-success upstream status or a missing encrypted token
makes `fetchStreamUrl` return `null` with no decryption performed and no
manifest fetch issued (the event log is empty). -/
theorem C8_null_no_effects (bd : List Nat → List Nat) (orc : List Char → Option (List Char))
    (resp : UpstreamResponse) (q : List Char)
    (h : resp.api_status ≠ some ("success".data) ∨ resp.stream_path = none) :
    fetchStreamUrl bd orc resp q = (none, []) := by
  rw [fetchStreamUrl]
  rcases h with h | h
  · rw [if_neg h]
  · by_cases h2 : resp.api_status = some ("success".data)
    · rw [if_pos h2, h]
    · rw [if_neg h2]

/-- Witness for C8: a concrete error response. -/
theorem C8_null_no_effects_witness :
    fetchStreamUrl (fun l => l) (fun _ => none)
      ⟨some ("error".data), some ("tok".data), none⟩ ("high".data) = (none, []) :=
  C8_null_no_effects (fun l => l) (fun _ => none)
    ⟨some ("error".data), some ("tok".data), none⟩ ("high".data) (Or.inl (by decide))

/-! Claim C5. -/

/-- Splitting on newline always produces at least one piece. -/
theorem splitNl_ne_nil (l : List Char) : splitNl l ≠ [] := by
  cases l with
  | nil => simp [splitNl]
  | cons c r =>
    rw [splitNl]
    by_cases hc : c = '\n'
    · simp [hc]
    · rw [if_neg hc]
      cases splitNl r <;> simp

/-- The trimmed line list of any fetched text is nonempty. -/
theorem toLines_ne_nil (t : List Char) : toLines t ≠ [] := by
  rw [toLines]
  intro h
  exact splitNl_ne_nil t (List.map_eq_nil_iff.mp h)

/-- Counterexample for C5: the claim asserts some fetched text has an empty
line list; in fact `split('\n')` yields at least one (possibly empty) line
for every text — the empty text gives `[""]` — so no such text exists. -/
theorem C5_counterexample : ¬ ∃ t : List Char, toLines t = [] := by
  rintro ⟨t, h⟩
  exact toLines_ne_nil t h

/-- Claim C5 (amended): the `EmptyManifest` check of the resolver is dead
code — for every fetch oracle and URL, `parseHlsManifest` never returns the
empty-manifest failure, because the trimmed line list is never empty. -/
theorem C5_empty_branch_dead (orc : List Char → Option (List Char)) (url : List Char) :
    (parseHlsManifest orc url).1 ≠ Except.error ResolveErr.emptyManifest := by
  rw [parseHlsManifest]
  cases ho : orc url with
  | none => simp
  | some text =>
    dsimp only
    rw [if_neg (by simpa [List.isEmpty_iff] using toLines_ne_nil text)]
    cases findNested (getBaseUrl url) (toLines text) with
    | none => simp
    | some su =>
      dsimp only
      cases orc su with
      | none => simp
      | some t2 => simp

/-! Concrete data for witness runs: a block decryption that produces the
plaintext `/hls/master.m3u8` for any block (CBC xors the IV back out), a
token whose remainder decodes to one zero block, and a fetch oracle serving
a one-segment flat playlist. -/

/-- Plaintext bytes the witness block cipher produces. -/
def targetPlain : List Nat :=
  ("/hls/master.m3u8".data).map Char.toNat

/-- Witness block decryption: constant `targetPlain ^^^ IV`, so that CBC
decryption of a single block under `IV` yields `targetPlain`. -/
def bdW : List Nat → List Nat :=
  fun _ => List.zipWith (fun a b => a ^^^ b) targetPlain IV

/-- Witness token: offset digit `0`, 15 further skipped characters, then a
base64 remainder decoding to exactly one 16-byte block. -/
def tokW : List Char :=
  ("0123456789012345".data) ++ ("AAAAAAAAAAAAAAAAAAAAAA".data)

/-- The HLS URL the witness token decrypts to. -/
def hlsUrlW : List Char :=
  HLS_BASE_URL ++ ("hls/master.m3u8".data)

/-- Witness fetch oracle: serves a flat one-segment playlist at the
decrypted URL. -/
def orcW : List Char → Option (List Char) :=
  fun u => if u = hlsUrlW then some ("seg0.ts".data) else none

/-- Witness upstream response: success with the witness token. -/
def respW : UpstreamResponse :=
  ⟨some ("success".data), some tokW, some ("320".data)⟩

/-- Fetch oracle whose playlist's only segment ends in `.m4a` but contains
`.ts.` in its name. -/
def orc7 : List Char → Option (List Char) :=
  fun _ => some ("seg.ts.m4a".data)

/-! Claim C1. -/

/-- Counterexample for C1: the claim says the manifest resolver
(`parseHlsManifest`/`parseStreamPlaylist`) itself fails when parsing yields
zero segments; in fact `parseHlsManifest` returns an empty-segments manifest
as a success (`Except.ok`) for a directives-only playlist — the
zero-segments check lives in the orchestrator, not in the resolver. -/
theorem C1_counterexample :
    (parseHlsManifest (fun _ => some ("#EXTM3U".data)) ("https://h/p.m3u8".data)).1
      = Except.ok ⟨none, [], 0⟩ := by
  rfl

/-- Claim C1 (amended): the zero-segments check is performed by the
orchestrator `fetchStreamUrl`, which returns `null` when the parsed manifest
has no segments; consequently every returned `MediaUrl` has a nonempty
segment list (no empty-segments success ever escapes the pipeline). -/
theorem C1_no_empty_success (bd : List Nat → List Nat) (orc : List Char → Option (List Char))
    (resp : UpstreamResponse) (q : List Char) (m : MediaUrl)
    (h : (fetchStreamUrl bd orc resp q).1 = some m) :
    m.segments ≠ [] := by
  rw [fetchStreamUrl] at h
  by_cases h1 : resp.api_status = some ("success".data)
  · rw [if_pos h1] at h
    cases hsp : resp.stream_path with
    | none => rw [hsp] at h; simp at h
    | some sp =>
      rw [hsp] at h
      dsimp only at h
      by_cases h2 : sp.isEmpty = true
      · rw [if_pos h2] at h; simp at h
      · rw [if_neg h2] at h
        by_cases h3 : (decryptStreamPath bd sp).isEmpty = true
        · rw [if_pos h3] at h; simp at h
        · rw [if_neg h3] at h
          cases hp : (parseHlsManifest orc (decryptStreamPath bd sp)).1 with
          | error e => rw [hp] at h; simp at h
          | ok manifest =>
            rw [hp] at h
            dsimp only at h
            cases hsg : manifest.segments with
            | nil => rw [hsg] at h; simp at h
            | cons s0 rest =>
              rw [hsg] at h
              dsimp only at h
              injection h with h4
              rw [← h4]
              simp
  · rw [if_neg h1] at h
    simp at h

set_option maxRecDepth 100000 in
/-- Witness for the amended C1: a complete successful concrete run of the
pipeline (decryption, manifest fetch, parse) whose returned descriptor has a
nonempty segment list. -/
theorem C1_no_empty_success_witness :
    ((fetchStreamUrl bdW orcW respW ("high".data)).1.get (by decide)).segments ≠ [] :=
  C1_no_empty_success bdW orcW respW ("high".data) _ (Option.some_get (by decide)).symm

/-! Claim C9. -/

/-- Counterexample for C9: a duration directive with a negative value
produces a segment whose `durationMs` is negative (`Math.round(-4 * 1000)`
is `-4000`, which is truthy and therefore not replaced by the default), so
`durationMs` is not non-negative for every possible line content. -/
theorem C9_counterexample :
    (parseStreamPlaylist ("https://h/p.m3u8".data)
        [("#EXTINF:-4,".data), ("a.ts".data)]).segments.map SegmentInfo.durationMs
      = [-4000] ∧ ¬ (0 : Int) ≤ -4000 := by
  constructor
  · decide
  · decide

/-- The scan preserves non-negativity of the pending duration and therefore
of every emitted segment duration, as long as every duration directive in
the remaining lines parses to a non-negative value. -/
theorem scanLines_durations_nonneg (base : List Char) (lines : List (List Char)) :
    ∀ (init : Option (List Char)) (cur : Int), 0 ≤ cur →
      (∀ l ∈ lines, startsWithL l ("#EXTINF:".data) = true → 0 ≤ extinfDuration l) →
      ∀ s ∈ (scanLines base init cur lines).2, 0 ≤ s.durationMs := by
  induction lines with
  | nil =>
    intro init cur hc hl s hs
    simp [scanLines] at hs
  | cons line rest ih =>
    intro init cur hc hl s hs
    rw [scanLines] at hs
    by_cases he : line.isEmpty = true
    · rw [if_pos he] at hs
      exact ih init cur hc (fun l hm => hl l (List.mem_cons_of_mem _ hm)) s hs
    · rw [if_neg he] at hs
      dsimp only at hs
      have hcur2 : 0 ≤ (if startsWithL line ("#EXTINF:".data) then extinfDuration line else cur) := by
        split
        · exact hl line (List.mem_cons_self _ _) (by assumption)
        · exact hc
      have hl2 : ∀ l ∈ rest, startsWithL l ("#EXTINF:".data) = true → 0 ≤ extinfDuration l :=
        fun l hm => hl l (List.mem_cons_of_mem _ hm)
      by_cases hseg : (!startsWithL line ("#".data) && isSegmentLine line) = true
      · rw [if_pos hseg] at hs
        dsimp only at hs
        rcases List.mem_cons.mp hs with hs | hs
        · rw [hs]
          exact hcur2
        · exact ih _ 6000 (by norm_num) hl2 s hs
      · rw [if_neg hseg] at hs
        exact ih _ _ hcur2 hl2 s hs

/-- Claim C9 (amended): every segment produced by the media-playlist line
scan has a non-negative `durationMs`, provided every `#EXTINF:` directive in
the playlist parses to a non-negative duration (without that proviso a
negative directive value is propagated verbatim, see the counterexample). -/
theorem C9_durations_nonneg (url : List Char) (lines : List (List Char))
    (h : ∀ l ∈ lines, startsWithL l ("#EXTINF:".data) = true → 0 ≤ extinfDuration l)
    (s : SegmentInfo) (hs : s ∈ (parseStreamPlaylist url lines).segments) :
    0 ≤ s.durationMs := by
  rw [parseStreamPlaylist] at hs
  exact scanLines_durations_nonneg (getBaseUrl url) lines none 6000 (by norm_num) h s hs

set_option maxRecDepth 100000 in
/-- Witness for the amended C9: a concrete playlist with a non-negative
directive, whose single parsed segment indeed has a non-negative duration. -/
theorem C9_durations_nonneg_witness :
    0 ≤ (⟨("https://h/a.ts".data), 4000⟩ : SegmentInfo).durationMs :=
  C9_durations_nonneg ("https://h/p.m3u8".data) [("#EXTINF:4,".data), ("a.ts".data)]
    (by decide) ⟨("https://h/a.ts".data), 4000⟩ (by decide)

/-! Claim C2. -/

/-- Counterexample for C2: the claim says a parsed duration applies to the
next non-comment line and then resets.  Here the directive is followed by
the non-comment, non-segment line `x.txt` and only then by `a.ts`; under the
claim the pending duration would have reset to 6000 before `a.ts`, but the
code keeps 4000: the pending value survives non-segment lines. -/
theorem C2_counterexample :
    (parseStreamPlaylist ("https://h/p.m3u8".data)
        [("#EXTINF:4,".data), ("x.txt".data), ("a.ts".data)]).segments.map SegmentInfo.durationMs
      = [4000] ∧ (4000 : Int) ≠ 6000 := by
  constructor
  · decide
  · decide

/-- Lines that are neither comments nor segment matches leave the scan state
(init URL and pending duration) unchanged. -/
theorem scanLines_skip (base : List Char) (mids : List (List Char))
    (hm : ∀ m ∈ mids, startsWithL m ("#".data) = false ∧ isSegmentLine m = false)
    (init : Option (List Char)) (cur : Int) (rest : List (List Char)) :
    scanLines base init cur (mids ++ rest) = scanLines base init cur rest := by
  induction mids with
  | nil => rfl
  | cons m ms ih =>
    have hm1 := (hm m (List.mem_cons_self _ _)).1
    have hm2 := (hm m (List.mem_cons_self _ _)).2
    have hmap : startsWithL m ("#EXT-X-MAP:".data) = false := by
      by_contra hx
      simp only [Bool.not_eq_false] at hx
      rw [map_starts_hash hx] at hm1
      exact Bool.true_eq_false.mp hm1
    have hext : startsWithL m ("#EXTINF:".data) = false := by
      by_contra hx
      simp only [Bool.not_eq_false] at hx
      rw [extinf_starts_hash hx] at hm1
      exact Bool.true_eq_false.mp hm1
    have ih2 := ih (fun l hl => hm l (List.mem_cons_of_mem _ hl))
    rw [List.cons_append, scanLines]
    by_cases he : m.isEmpty = true
    · rw [if_pos he]
      exact ih2
    · rw [if_neg he]
      dsimp only
      rw [hmap, hext, hm1, hm2]
      simp only [Bool.false_eq_true, if_false, Bool.not_false, Bool.and_false]
      exact ih2

/-- Claim C2 (amended): a parsed duration directive applies to the next
*segment* line — not merely the next non-comment line: it survives
intervening non-comment lines that do not match a segment extension, and the
pending duration resets to 6000 only after a segment is appended.  In
particular, with the directive immediately followed by two segment lines
(`mids = []`), the first segment alone carries the parsed duration and the
second carries 6000. -/
theorem C2_duration_applies_to_next_segment (url d : List Char) (mids : List (List Char))
    (s1 s2 : List Char)
    (hd : startsWithL d ("#EXTINF:".data) = true)
    (hm : ∀ m ∈ mids, startsWithL m ("#".data) = false ∧ isSegmentLine m = false)
    (h1 : startsWithL s1 ("#".data) = false) (h1s : isSegmentLine s1 = true)
    (h2 : startsWithL s2 ("#".data) = false) (h2s : isSegmentLine s2 = true) :
    (parseStreamPlaylist url (d :: (mids ++ [s1, s2]))).segments.map SegmentInfo.durationMs
      = [extinfDuration d, 6000] := by
  have hde : d.isEmpty = false := by
    obtain ⟨t, rfl⟩ := startsWithL_ex hd
    rfl
  have hdh : startsWithL d ("#".data) = true := extinf_starts_hash hd
  have hdm : startsWithL d ("#EXT-X-MAP:".data) = false := extinf_not_map hd
  have h1e : s1.isEmpty = false := by
    cases s1 with
    | nil => exact absurd h1s (by simp [isSegmentLine])
    | cons a b => rfl
  have h2e : s2.isEmpty = false := by
    cases s2 with
    | nil => exact absurd h2s (by simp [isSegmentLine])
    | cons a b => rfl
  have h1m : startsWithL s1 ("#EXT-X-MAP:".data) = false := by
    by_contra hx
    simp only [Bool.not_eq_false] at hx
    rw [map_starts_hash hx] at h1
    exact Bool.true_eq_false.mp h1
  have h1x : startsWithL s1 ("#EXTINF:".data) = false := by
    by_contra hx
    simp only [Bool.not_eq_false] at hx
    rw [extinf_starts_hash hx] at h1
    exact Bool.true_eq_false.mp h1
  have h2m : startsWithL s2 ("#EXT-X-MAP:".data) = false := by
    by_contra hx
    simp only [Bool.not_eq_false] at hx
    rw [map_starts_hash hx] at h2
    exact Bool.true_eq_false.mp h2
  have h2x : startsWithL s2 ("#EXTINF:".data) = false := by
    by_contra hx
    simp only [Bool.not_eq_false] at hx
    rw [extinf_starts_hash hx] at h2
    exact Bool.true_eq_false.mp h2
  rw [parseStreamPlaylist]
  dsimp only
  rw [scanLines, if_neg (by rw [hde]; exact Bool.false_ne_true)]
  dsimp only
  rw [hdm, hdh, hd]
  simp only [Bool.false_eq_true, if_false, if_true, Bool.not_true, Bool.false_and]
  rw [scanLines_skip (getBaseUrl url) mids hm]
  rw [scanLines, if_neg (by rw [h1e]; exact Bool.false_ne_true)]
  dsimp only
  rw [h1m, h1x, h1, h1s]
  simp only [Bool.false_eq_true, if_false, Bool.not_false, Bool.true_and, if_true]
  rw [scanLines, if_neg (by rw [h2e]; exact Bool.false_ne_true)]
  dsimp only
  rw [h2m, h2x, h2, h2s]
  simp only [Bool.false_eq_true, if_false, Bool.not_false, Bool.true_and, if_true]
  rw [scanLines]
  rfl

set_option maxRecDepth 100000 in
/-- Witness for the amended C2: directive `#EXTINF:4.5,` immediately
followed by two segment lines yields durations 4500 then 6000. -/
theorem C2_duration_witness :
    (parseStreamPlaylist ("https://h/p.m3u8".data)
        (("#EXTINF:4.5,".data) :: ([] ++ [("a.ts".data), ("b.ts".data)]))).segments.map
          SegmentInfo.durationMs
      = [extinfDuration ("#EXTINF:4.5,".data), 6000] ∧
    extinfDuration ("#EXTINF:4.5,".data) = 4500 :=
  ⟨C2_duration_applies_to_next_segment ("https://h/p.m3u8".data) ("#EXTINF:4.5,".data) []
      ("a.ts".data) ("b.ts".data) (by decide) (by simp) (by decide) (by decide)
      (by decide) (by decide),
    by decide⟩

/-! Claim C3. -/

/-- The recursive spec-side first-marker scan agrees with the
`indexOf`-plus-`substring` computation of the code. -/
theorem markerSuffix_eq (t : List Char) :
    specMarkerSuffix t = (idxOfSub ("hls/".data) t).map (fun k => t.drop k) := by
  induction t with
  | nil => rfl
  | cons c r ih =>
    rw [specMarkerSuffix, idxOfSub]
    by_cases hst : startsWithL (c :: r) ("hls/".data) = true
    · rw [if_pos hst, if_pos hst]
      rfl
    · rw [if_neg hst, if_neg hst, ih]
      cases idxOfSub ("hls/".data) r <;> rfl

/-- A text containing the slash-prefixed marker also contains the bare
marker. -/
theorem hasSub_slash_marker {t : List Char} (h : hasSub t ("/hls/".data) = true) :
    hasSub t ("hls/".data) = true := by
  obtain ⟨A, B, ht⟩ := hasSub_ex h
  have ht2 : t = (A ++ ['/']) ++ (("hls/".data) ++ B) := by
    rw [ht]
    simp [List.append_assoc]
  rw [ht2]
  exact hasSub_of_parts (A ++ ['/']) ("hls/".data) B

/-- Counterexample for C3: the cleaned text `hls/abc` contains the
4-character marker `hls/`, so under the claim extraction succeeds with
`HLS_BASE_URL ++ "hls/abc"`; but the code guards on the 5-character
`'/hls/'` (`includes('/hls/')`) and therefore fails, returning the empty
string. -/
theorem C3_counterexample :
    extractHlsPath ("hls/abc".data) = [] ∧
    hasSub ("hls/abc".data) ("hls/".data) = true ∧
    HLS_BASE_URL ++ ("hls/abc".data) ≠ [] := by
  refine ⟨by decide, by decide, by decide⟩

/-- Claim C3 (amended): extraction fails (empty string) exactly when the
cleaned text lacks the slash-prefixed marker `/hls/`; when `/hls/` occurs,
the result is the fixed base URL concatenated with the substring starting at
the first occurrence of the 4-character marker `hls/` (which may begin
before the `/hls/` occurrence). -/
theorem C3_marker_extraction (t : List Char) :
    (hasSub t ("/hls/".data) = false → extractHlsPath t = []) ∧
    (∀ s, hasSub t ("/hls/".data) = true → specMarkerSuffix t = some s →
      extractHlsPath t = HLS_BASE_URL ++ s) := by
  constructor
  · intro h
    rw [extractHlsPath, if_neg (by simp [h])]
  · intro s h hs
    have h4 : hasSub t ("hls/".data) = true := hasSub_slash_marker h
    rw [hasSub] at h4
    obtain ⟨k, hk⟩ := Option.isSome_iff_exists.mp h4
    rw [markerSuffix_eq, hk] at hs
    simp only [Option.map_some'] at hs
    injection hs with hs2
    rw [extractHlsPath, if_pos h, jsIndexOfSub, hk]
    dsimp only
    rw [jsSubstringFrom]
    rw [Int.toNat_ofNat, hs2]

/-- Witness for the amended C3: `a/hls/x` contains `/hls/` and extraction
returns the base URL plus the suffix from the first `hls/`. -/
theorem C3_marker_extraction_witness :
    extractHlsPath ("a/hls/x".data) = HLS_BASE_URL ++ ("hls/x".data) :=
  (C3_marker_extraction ("a/hls/x".data)).2 ("hls/x".data) (by decide) (by decide)

/-! Claim C7. -/

/-- Counterexample for C7: a successful pipeline run whose first (and only)
segment URL ends in `.m4a` — under the claim the format would be the default
`m4a` since none of the four listed extensions is a suffix — yet the code
classifies by substring containment (`includes`), finds `.ts` in
`seg.ts.m4a`, and returns format `ts`. -/
theorem C7_counterexample :
    (fetchStreamUrl bdW orc7 respW ("high".data)).1.map MediaUrl.format
        = some ("ts".data) ∧
    (fetchStreamUrl bdW orc7 respW ("high".data)).1.map MediaUrl.url
        = some ("https://vodhlsgaana-ebw.akamaized.net/hls/seg.ts.m4a".data) ∧
    endsWithL ("https://vodhlsgaana-ebw.akamaized.net/hls/seg.ts.m4a".data) (".m4a".data)
        = true ∧
    ("ts".data : List Char) ≠ ("m4a".data) := by
  refine ⟨by decide, by decide, by decide, by decide⟩

/-- Claim C7 (amended): the container format of every returned descriptor is
computed from the first segment URL (the descriptor's `url` field) by
substring containment, testing `.m4s`, `.mp4`, `.ts`, `.aac` in that order
and defaulting to `m4a` when none of them occurs anywhere in the URL. -/
theorem C7_format_classification (bd : List Nat → List Nat)
    (orc : List Char → Option (List Char)) (resp : UpstreamResponse) (q : List Char)
    (m : MediaUrl) (h : (fetchStreamUrl bd orc resp q).1 = some m) :
    m.format = detectFormat m.url ∧
    (hasSub m.url (".m4s".data) = true → m.format = ("m4s".data)) ∧
    (hasSub m.url (".m4s".data) = false → hasSub m.url (".mp4".data) = true →
      m.format = ("mp4".data)) ∧
    (hasSub m.url (".m4s".data) = false → hasSub m.url (".mp4".data) = false →
      hasSub m.url (".ts".data) = true → m.format = ("ts".data)) ∧
    (hasSub m.url (".m4s".data) = false → hasSub m.url (".mp4".data) = false →
      hasSub m.url (".ts".data) = false → hasSub m.url (".aac".data) = true →
      m.format = ("aac".data)) ∧
    (hasSub m.url (".m4s".data) = false → hasSub m.url (".mp4".data) = false →
      hasSub m.url (".ts".data) = false → hasSub m.url (".aac".data) = false →
      m.format = ("m4a".data)) := by
  have hform : m.format = detectFormat m.url := by
    rw [fetchStreamUrl] at h
    by_cases h1 : resp.api_status = some ("success".data)
    · rw [if_pos h1] at h
      cases hsp : resp.stream_path with
      | none => rw [hsp] at h; simp at h
      | some sp =>
        rw [hsp] at h
        dsimp only at h
        by_cases h2 : sp.isEmpty = true
        · rw [if_pos h2] at h; simp at h
        · rw [if_neg h2] at h
          by_cases h3 : (decryptStreamPath bd sp).isEmpty = true
          · rw [if_pos h3] at h; simp at h
          · rw [if_neg h3] at h
            cases hp : (parseHlsManifest orc (decryptStreamPath bd sp)).1 with
            | error e => rw [hp] at h; simp at h
            | ok manifest =>
              rw [hp] at h
              dsimp only at h
              cases hsg : manifest.segments with
              | nil => rw [hsg] at h; simp at h
              | cons s0 rest =>
                rw [hsg] at h
                dsimp only at h
                injection h with h4
                rw [← h4]
    · rw [if_neg h1] at h
      simp at h
  refine ⟨hform, ?_, ?_, ?_, ?_, ?_⟩
  · intro hc1
    rw [hform, detectFormat, if_pos hc1]
  · intro hc1 hc2
    rw [hform, detectFormat, if_neg (by simp [hc1]), if_pos hc2]
  · intro hc1 hc2 hc3
    rw [hform, detectFormat, if_neg (by simp [hc1]), if_neg (by simp [hc2]), if_pos hc3]
  · intro hc1 hc2 hc3 hc4
    rw [hform, detectFormat, if_neg (by simp [hc1]), if_neg (by simp [hc2]),
      if_neg (by simp [hc3]), if_pos hc4]
  · intro hc1 hc2 hc3 hc4
    rw [hform, detectFormat, if_neg (by simp [hc1]), if_neg (by simp [hc2]),
      if_neg (by simp [hc3]), if_neg (by simp [hc4])]

set_option maxRecDepth 100000 in
/-- Witness for the amended C7: in the concrete successful run the
descriptor's format equals the containment classification of its first
segment URL, which contains `.ts`. -/
theorem C7_format_classification_witness :
    ((fetchStreamUrl bdW orcW respW ("high".data)).1.get (by decide)).format
        = detectFormat ((fetchStreamUrl bdW orcW respW ("high".data)).1.get (by decide)).url ∧
    detectFormat ("https://vodhlsgaana-ebw.akamaized.net/hls/seg0.ts".data) = ("ts".data) :=
  ⟨(C7_format_classification bdW orcW respW ("high".data) _
      (Option.some_get (by decide)).symm).1, by decide⟩

/-! Claim C6: lemmas about `takeWhile`, `lastIdxOf` and `idxOfSub` over
append decompositions, leading to a characterisation of
`resolveUrl ∘ getBaseUrl`. -/

/-- The function `takeWhile` passes over a block whose elements all
satisfy the predicate. -/
theorem takeWhile_all_append (p : Char → Bool) (A B : List Char)
    (h : ∀ c ∈ A, p c = true) :
    (A ++ B).takeWhile p = A ++ B.takeWhile p := by
  induction A with
  | nil => rfl
  | cons a A' ih =>
    rw [List.cons_append, List.takeWhile_cons_of_pos (h a (List.mem_cons_self _ _)),
      ih (fun c hc => h c (List.mem_cons_of_mem _ hc)), List.cons_append]

/-- The last index inside the right block shifts by the left block's
length. -/
theorem lastIdxOf_append_some {c : Char} {B : List Char} {k : Nat} (A : List Char)
    (h : lastIdxOf c B = some k) :
    lastIdxOf c (A ++ B) = some (A.length + k) := by
  induction A with
  | nil => simpa using h
  | cons a A' ih =>
    rw [List.cons_append, lastIdxOf, ih]
    simp [List.length_cons, Nat.add_right_comm]

/-- A last-index hit means the character occurs. -/
theorem mem_of_lastIdxOf_some {c : Char} {l : List Char} {k : Nat}
    (h : lastIdxOf c l = some k) : c ∈ l := by
  induction l generalizing k with
  | nil => simp [lastIdxOf] at h
  | cons a r ih =>
    rw [lastIdxOf] at h
    cases h2 : lastIdxOf c r with
    | some k2 => exact List.mem_cons_of_mem _ (ih h2)
    | none =>
      rw [h2] at h
      dsimp only at h
      by_cases hac : a = c
      · rw [hac]
        exact List.mem_cons_self _ _
      · rw [if_neg hac] at h
        exact absurd h (by simp)

/-- A last-index miss means the character does not occur. -/
theorem not_mem_of_lastIdxOf_none {c : Char} {l : List Char}
    (h : lastIdxOf c l = none) : c ∉ l := by
  induction l with
  | nil => simp
  | cons a r ih =>
    rw [lastIdxOf] at h
    cases h2 : lastIdxOf c r with
    | some k2 =>
      rw [h2] at h
      exact absurd h (by simp)
    | none =>
      rw [h2] at h
      dsimp only at h
      by_cases hac : a = c
      · rw [if_pos hac] at h
        exact absurd h (by simp)
      · intro hmem
        rcases List.mem_cons.mp hmem with h3 | h3
        · exact hac h3.symm
        · exact ih h2 h3

/-- Dropping up to `c` stops inside a block that contains `c`. -/
theorem dropWhile_ne_append_mem {c : Char} {A : List Char} (B : List Char) (h : c ∈ A) :
    (A ++ B).dropWhile (· ≠ c) = A.dropWhile (· ≠ c) ++ B := by
  induction A with
  | nil => simp at h
  | cons a A' ih =>
    by_cases hac : a = c
    · subst hac
      simp [List.dropWhile_cons]
    · have hmem : c ∈ A' := by
        rcases List.mem_cons.mp h with h1 | h1
        · exact absurd h1.symm hac
        · exact h1
      rw [List.cons_append, List.dropWhile_cons_of_pos (by simp [hac]),
        List.dropWhile_cons_of_pos (by simp [hac]), ih hmem]

/-- Dropping up to `c` passes over a block that does not contain `c`. -/
theorem dropWhile_ne_append_not_mem {c : Char} {A : List Char} (B : List Char) (h : c ∉ A) :
    (A ++ B).dropWhile (· ≠ c) = B.dropWhile (· ≠ c) := by
  induction A with
  | nil => rfl
  | cons a A' ih =>
    have hac : a ≠ c := fun e => h (by rw [e]; exact List.mem_cons_self _ _)
    have hm : c ∉ A' := fun hmem => h (List.mem_cons_of_mem _ hmem)
    rw [List.cons_append, List.dropWhile_cons_of_pos (by simp [hac]), ih hm]

/-- Cutting at the last occurrence (inclusive) equals reversing, dropping up
to the character, and reversing back — the spec-side directory-prefix
computation. -/
theorem take_lastIdx_reverse {c : Char} {l : List Char} {k : Nat}
    (h : lastIdxOf c l = some k) :
    l.take (k + 1) = (l.reverse.dropWhile (· ≠ c)).reverse := by
  induction l generalizing k with
  | nil => simp [lastIdxOf] at h
  | cons a r ih =>
    rw [lastIdxOf] at h
    cases h2 : lastIdxOf c r with
    | some k2 =>
      rw [h2] at h
      dsimp only at h
      injection h with hk
      subst hk
      rw [List.take_succ_cons, ih h2, List.reverse_cons]
      have hcr : c ∈ r.reverse := List.mem_reverse.mpr (mem_of_lastIdxOf_some h2)
      rw [dropWhile_ne_append_mem [a] hcr, List.reverse_append]
      rfl
    | none =>
      rw [h2] at h
      dsimp only at h
      by_cases hac : a = c
      · rw [if_pos hac] at h
        injection h with hk
        subst hk
        have hnr : c ∉ r.reverse := fun hx =>
          not_mem_of_lastIdxOf_none h2 (List.mem_reverse.mp hx)
        rw [List.reverse_cons, dropWhile_ne_append_not_mem [a] hnr, hac]
        simp [List.dropWhile_cons]
      · rw [if_neg hac] at h
        exact absurd h (by simp)

/-- The first occurrence of `://` in a string whose part before the marker
contains no colon is exactly at the end of that part. -/
theorem idxOfSub_scheme (sch t : List Char) (hs : ∀ c ∈ sch, c ≠ ':') :
    idxOfSub ("://".data) (sch ++ (':' :: '/' :: '/' :: t)) = some sch.length := by
  induction sch with
  | nil =>
    have hT : startsWithL (':' :: '/' :: '/' :: t) ("://".data) = true := by
      simpa using startsWithL_append ("://".data) t
    rw [List.nil_append, idxOfSub, if_pos hT]
    rfl
  | cons c sch' ih =>
    have hc : c ≠ ':' := hs c (List.mem_cons_self _ _)
    have hF : startsWithL (c :: (sch' ++ (':' :: '/' :: '/' :: t))) ("://".data) = false := by
      have : startsWithL (c :: (sch' ++ (':' :: '/' :: '/' :: t))) ("://".data)
          = ((':' == c) && List.isPrefixOf ['/', '/'] (sch' ++ (':' :: '/' :: '/' :: t))) := rfl
      rw [this, beq_eq_false_iff_ne.mpr (Ne.symm hc)]
      rfl
    rw [List.cons_append, idxOfSub, if_neg (by simp [hF]),
      ih (fun x hx => hs x (List.mem_cons_of_mem _ hx))]
    rfl

/-- The first occurrence of a character after a block that avoids it is just
past the block. -/
theorem idxOfSub_single (c : Char) (A B : List Char) (hA : ∀ x ∈ A, x ≠ c) :
    idxOfSub [c] (A ++ c :: B) = some A.length := by
  induction A with
  | nil =>
    have hT : startsWithL (c :: B) [c] = true := by
      simp [startsWithL, List.isPrefixOf]
    rw [List.nil_append, idxOfSub, if_pos hT]
    rfl
  | cons a A' ih =>
    have ha : a ≠ c := hA a (List.mem_cons_self _ _)
    have hF : startsWithL (a :: (A' ++ c :: B)) [c] = false := by
      have : startsWithL (a :: (A' ++ c :: B)) [c]
          = ((c == a) && List.isPrefixOf [] (A' ++ c :: B)) := rfl
      rw [this, beq_eq_false_iff_ne.mpr (Ne.symm ha)]
      rfl
    rw [List.cons_append, idxOfSub, if_neg (by simp [hF]),
      ih (fun x hx => hA x (List.mem_cons_of_mem _ hx))]
    rfl

/-- Root-relative resolution against a base of the shape
`sch ++ "://" ++ auth ++ "/" ++ tail` cuts the base at the first slash after
the scheme marker and appends the reference. -/
theorem resolve_root (sch auth tail ref : List Char)
    (hs : ∀ c ∈ sch, c ≠ ':') (ha : ∀ c ∈ auth, c ≠ '/')
    (h1 : startsWithL ref ("http://".data) = false)
    (h2 : startsWithL ref ("https://".data) = false)
    (h3 : startsWithL ref ("/".data) = true) :
    resolveUrl (sch ++ ("://".data) ++ auth ++ ("/".data) ++ tail) ref
      = sch ++ ("://".data) ++ auth ++ ref := by
  rw [resolveUrl, if_neg (by simp [h1, h2]), if_pos h3]
  have hfull : sch ++ ("://".data) ++ auth ++ ("/".data) ++ tail
      = sch ++ (':' :: '/' :: '/' :: (auth ++ '/' :: tail)) := by
    simp [List.append_assoc]
  rw [hfull, idxOfSub_scheme sch _ hs]
  dsimp only
  rw [idxOfCharFrom]
  have hdrop : (sch ++ (':' :: '/' :: '/' :: (auth ++ '/' :: tail))).drop (sch.length + 3)
      = auth ++ '/' :: tail := by
    have hre : sch ++ (':' :: '/' :: '/' :: (auth ++ '/' :: tail))
        = (sch ++ [':', '/', '/']) ++ (auth ++ '/' :: tail) := by
      simp [List.append_assoc]
    have hlen : sch.length + 3 = (sch ++ [':', '/', '/']).length := by
      simp [List.length_append]
    rw [hre, hlen, List.drop_left]
  rw [hdrop, idxOfSub_single '/' auth tail ha]
  simp only [Option.map_some']
  have hre2 : sch ++ (':' :: '/' :: '/' :: (auth ++ '/' :: tail))
      = ((sch ++ [':', '/', '/']) ++ auth) ++ ('/' :: tail) := by
    simp [List.append_assoc]
  have hlen2 : auth.length + (sch.length + 3) = ((sch ++ [':', '/', '/']) ++ auth).length := by
    simp [List.length_append]
    omega
  rw [hre2, hlen2, List.take_left]

/-- When the query-stripped URL has a last slash, `getBaseUrl` agrees with
the spec-side reverse-based directory prefix. -/
theorem getBaseUrl_eq_specDirOf (u : List Char)
    (hK : (lastIdxOf '/' (u.takeWhile (· ≠ '?'))).isSome = true) :
    getBaseUrl u = specDirOf u := by
  obtain ⟨k, hk⟩ := Option.isSome_iff_exists.mp hK
  rw [getBaseUrl, specDirOf]
  rw [hk]
  exact take_lastIdx_reverse hk

/-- Decomposition of `getBaseUrl` on a well-formed base URL: the result is
the scheme, authority and a slash followed by some tail, and it coincides
with the spec-side directory prefix. -/
theorem getBaseUrl_decomp (sch auth rest : List Char)
    (hs : ∀ c ∈ sch, c ≠ ':' ∧ c ≠ '?') (ha : ∀ c ∈ auth, c ≠ '/' ∧ c ≠ '?') :
    (∃ tail, getBaseUrl (sch ++ ("://".data) ++ auth ++ ("/".data) ++ rest)
        = sch ++ ("://".data) ++ auth ++ ("/".data) ++ tail) ∧
    getBaseUrl (sch ++ ("://".data) ++ auth ++ ("/".data) ++ rest)
        = specDirOf (sch ++ ("://".data) ++ auth ++ ("/".data) ++ rest) := by
  set X : List Char := (sch ++ ("://".data)) ++ auth with hX
  have hA : ∀ c ∈ X ++ ("/".data), (fun ch => decide (ch ≠ '?')) c = true := by
    intro c hc
    apply decide_eq_true
    intro hq
    subst hq
    rw [hX] at hc
    simp only [List.append_assoc, List.mem_append] at hc
    rcases hc with hc | hc | hc | hc
    · exact (hs _ hc).2 rfl
    · exact absurd hc (by decide)
    · exact (ha _ hc).2 rfl
    · exact absurd hc (by decide)
  have hfull : sch ++ ("://".data) ++ auth ++ ("/".data) ++ rest
      = (X ++ ("/".data)) ++ rest := by
    rw [hX]
  have hpre : (sch ++ ("://".data) ++ auth ++ ("/".data) ++ rest).takeWhile (· ≠ '?')
      = X ++ ('/' :: rest.takeWhile (· ≠ '?')) := by
    rw [hfull, takeWhile_all_append _ _ _ hA]
    simp [List.append_assoc]
  set B2 : List Char := rest.takeWhile (· ≠ '?') with hB2
  have hlast : ∃ m, lastIdxOf '/' ('/' :: B2) = some m ∧
      ('/' :: B2).take (m + 1) = '/' :: B2.take m := by
    cases hB : lastIdxOf '/' B2 with
    | some k =>
      refine ⟨k + 1, ?_, ?_⟩
      · rw [lastIdxOf, hB]
      · rw [List.take_succ_cons]
    | none =>
      refine ⟨0, ?_, ?_⟩
      · rw [lastIdxOf, hB]
        dsimp only
        rw [if_pos rfl]
      · rw [List.take_succ_cons, List.take_zero]
  obtain ⟨m, hm, hmt⟩ := hlast
  have hlastfull : lastIdxOf '/' ((sch ++ ("://".data) ++ auth ++ ("/".data) ++ rest).takeWhile
      (· ≠ '?')) = some (X.length + m) := by
    rw [hpre]
    exact lastIdxOf_append_some X hm
  have hbase : getBaseUrl (sch ++ ("://".data) ++ auth ++ ("/".data) ++ rest)
      = sch ++ ("://".data) ++ auth ++ ("/".data) ++ B2.take m := by
    rw [getBaseUrl]
    dsimp only
    rw [hlastfull, hpre]
    dsimp only
    rw [Nat.add_assoc, List.take_append, hmt]
    rw [hX]
    simp [List.append_assoc]
  constructor
  · exact ⟨B2.take m, hbase⟩
  · rw [getBaseUrl_eq_specDirOf _ (by rw [hlastfull]; rfl)]

/-- Counterexample for C6: with base `https://host` (no path slash after the
authority), the claim says the root-relative reference joins to the
scheme+authority, giving `https://host/media/seg0.ts`; the code truncates
the base to `https://` and produces `https:///media/seg0.ts`. -/
theorem C6_counterexample :
    resolveUrl (getBaseUrl ("https://host".data)) ("/media/seg0.ts".data)
        = ("https:///media/seg0.ts".data) ∧
    ("https:///media/seg0.ts".data) ≠ ("https://host/media/seg0.ts".data) := by
  refine ⟨by decide, by decide⟩

/-- Claim C6 (amended): for base URLs whose pre-query part has the shape
`scheme://authority/…` (scheme free of `:`, `?`; authority free of `/`,
`?`) and any reference: an absolute http(s) reference passes through
unchanged; a root-relative reference is joined to scheme+authority with the
base path discarded; any other reference is concatenated onto the base
URL's directory prefix (up to and including the last slash of the
query-stripped base).  Without the shape proviso the root-relative clause
fails, see the counterexample. -/
theorem C6_url_resolution (sch auth rest ref : List Char)
    (hs : ∀ c ∈ sch, c ≠ ':' ∧ c ≠ '?') (ha : ∀ c ∈ auth, c ≠ '/' ∧ c ≠ '?') :
    (startsWithL ref ("http://".data) = true ∨ startsWithL ref ("https://".data) = true →
      resolveUrl (getBaseUrl (sch ++ ("://".data) ++ auth ++ ("/".data) ++ rest)) ref = ref) ∧
    (startsWithL ref ("http://".data) = false → startsWithL ref ("https://".data) = false →
      startsWithL ref ("/".data) = true →
      resolveUrl (getBaseUrl (sch ++ ("://".data) ++ auth ++ ("/".data) ++ rest)) ref
        = sch ++ ("://".data) ++ auth ++ ref) ∧
    (startsWithL ref ("http://".data) = false → startsWithL ref ("https://".data) = false →
      startsWithL ref ("/".data) = false →
      resolveUrl (getBaseUrl (sch ++ ("://".data) ++ auth ++ ("/".data) ++ rest)) ref
        = specDirOf (sch ++ ("://".data) ++ auth ++ ("/".data) ++ rest) ++ ref) := by
  obtain ⟨⟨tail, htail⟩, hspec⟩ := getBaseUrl_decomp sch auth rest hs ha
  refine ⟨?_, ?_, ?_⟩
  · intro habs
    rw [resolveUrl]
    rcases habs with h | h
    · rw [if_pos (by simp [h])]
    · rw [if_pos (by simp [h])]
  · intro h1 h2 h3
    rw [htail]
    exact resolve_root sch auth tail ref (fun c hc => (hs c hc).1)
      (fun c hc => (ha c hc).1) h1 h2 h3
  · intro h1 h2 h3
    rw [resolveUrl, if_neg (by simp [h1, h2]), if_neg (by simp [h3]), hspec]

/-- Witness for the amended C6: the three instances from the spec with base
`https://host/a/b/playlist.m3u8?x=1`. -/
theorem C6_url_resolution_witness :
    (resolveUrl (getBaseUrl (("https".data) ++ ("://".data) ++ ("host".data) ++ ("/".data)
          ++ ("a/b/playlist.m3u8?x=1".data))) ("seg0.ts".data)
        = specDirOf (("https".data) ++ ("://".data) ++ ("host".data) ++ ("/".data)
          ++ ("a/b/playlist.m3u8?x=1".data)) ++ ("seg0.ts".data)) ∧
    (specDirOf (("https".data) ++ ("://".data) ++ ("host".data) ++ ("/".data)
          ++ ("a/b/playlist.m3u8?x=1".data)) ++ ("seg0.ts".data)
        = ("https://host/a/b/seg0.ts".data)) ∧
    (resolveUrl (getBaseUrl (("https".data) ++ ("://".data) ++ ("host".data) ++ ("/".data)
          ++ ("a/b/playlist.m3u8?x=1".data))) ("/media/seg0.ts".data)
        = ("https".data) ++ ("://".data) ++ ("host".data) ++ ("/media/seg0.ts".data)) ∧
    (("https".data) ++ ("://".data) ++ ("host".data) ++ ("/media/seg0.ts".data)
        = ("https://host/media/seg0.ts".data)) ∧
    (resolveUrl (getBaseUrl (("https".data) ++ ("://".data) ++ ("host".data) ++ ("/".data)
          ++ ("a/b/playlist.m3u8?x=1".data))) ("https://other/seg.ts".data)
        = ("https://other/seg.ts".data)) :=
  ⟨(C6_url_resolution ("https".data) ("host".data) ("a/b/playlist.m3u8?x=1".data)
      ("seg0.ts".data) (by decide) (by decide)).2.2 (by decide) (by decide) (by decide),
    by decide,
    (C6_url_resolution ("https".data) ("host".data) ("a/b/playlist.m3u8?x=1".data)
      ("/media/seg0.ts".data) (by decide) (by decide)).2.1 (by decide) (by decide) (by decide),
    by decide,
    (C6_url_resolution ("https".data) ("host".data) ("a/b/playlist.m3u8?x=1".data)
      ("https://other/seg.ts".data) (by decide) (by decide)).1 (Or.inr (by decide))⟩

end Gaana
